import Mathlib

set_option maxHeartbeats 1000000

/- Shallow embedding of auto-wc (src/index.ts): a mixin that, at connect
time, scans an instance's prototype chain for methods named with the
on-prefixed convention, registers each as a DOM event listener bound to the
instance, locks the property, and tears everything down at disconnect time;
plus the public registration surface defineAutoWebComponent. -/

/-- A JavaScript function value: the identity of its underlying code together
with, for functions produced by Function.prototype.bind, the fresh stamp of
the bind call that created it (bind always returns a new function object,
distinct from the original and from every other bound copy). -/
structure FnVal where
  origId : Nat
  bindStamp : Option Nat
deriving DecidableEq

/-- A JavaScript value as far as the wiring logic observes it: either a
function or some non-callable value. -/
inductive JsVal where
  | fn (f : FnVal)
  | prim (n : Nat)
deriving DecidableEq

/-- A data-property descriptor. -/
structure PropDesc where
  value : JsVal
  writable : Bool
  configurable : Bool
deriving DecidableEq

/-- The own properties of one object on a prototype chain, in creation
order (as enumerated by Object.getOwnPropertyNames). -/
abbrev Level := List (String × PropDesc)

/-- Own-property lookup on one chain level. -/
def lookupLevel : Level → String → Option PropDesc
  | [], _ => none
  | (n, d) :: rest, m => if n = m then some d else lookupLevel rest m

/-- Property lookup along a prototype chain (first hit wins). -/
def lookupChain : List Level → String → Option JsVal
  | [], _ => none
  | lvl :: rest, m =>
    match lookupLevel lvl m with
    | some d => some d.value
    | none => lookupChain rest m

/-- Descriptor lookup along a prototype chain (first hit wins). -/
def lookupDescChain : List Level → String → Option PropDesc
  | [], _ => none
  | lvl :: rest, m =>
    match lookupLevel lvl m with
    | some d => some d
    | none => lookupDescChain rest m

/-- State of one component instance: its own properties, the prototype
chain above it (up to but not including Object.prototype, which defines no
name matching the convention), the DOM listener list, the _cleanupFns
registry, and a counter supplying fresh stamps for bind calls. -/
structure Inst where
  own : Level
  protos : List Level
  listeners : List (String × FnVal)
  cleanupFns : List (String × FnVal)
  bindCounter : Nat
deriving DecidableEq

/-- The full prototype chain walked by _wireAndLockEvents, starting at the
instance itself. -/
def instChain (i : Inst) : List Level := i.own :: i.protos

/-- Translation of isEventInterceptorMethod: tests the regular expression
matching the two characters "on" followed by an ASCII uppercase letter. -/
def isEventInterceptorMethod (s : String) : Bool :=
  match s.data with
  | 'o' :: 'n' :: c :: _ => decide ('A' ≤ c) && decide (c ≤ 'Z')
  | _ => false

/-- ASCII lowercasing of one character; agrees with toLowerCase on every
method name the convention admits (all ASCII). -/
def lowerChar (c : Char) : Char :=
  if 'A' ≤ c ∧ c ≤ 'Z' then Char.ofNat (c.toNat + 32) else c

/-- Translation of getEventName: strip the two-character prefix and
lowercase the remainder (methodName.substring(2).toLowerCase()). -/
def getEventName (methodName : String) : String :=
  String.mk ((methodName.data.drop 2).map lowerChar)

/-- Add a name to the scan's accumulator unless already present; mirrors
insertion into the hostMethods Set (first occurrence kept, order preserved). -/
def addUnique (acc : List String) (x : String) : List String :=
  if x ∈ acc then acc else acc ++ [x]

/-- Scan one chain level: for each own property name in order, add it to the
accumulator when it matches the interceptor convention. -/
def scanLevel (acc : List String) (lvl : Level) : List String :=
  (lvl.map Prod.fst).foldl
    (fun a p => if isEventInterceptorMethod p then addUnique a p else a) acc

/-- The deduplicated method names collected by the prototype-chain walk in
_wireAndLockEvents. -/
def hostMethods (chain : List Level) : List String :=
  chain.foldl scanLevel []

/-- The value read by this[method], provided it is callable; none mirrors
the `typeof originalHostFn !== "function"` skip. -/
def resolvesFn (i : Inst) (m : String) : Option FnVal :=
  match lookupChain (instChain i) m with
  | some (JsVal.fn f) => some f
  | _ => none

/-- addEventListener: appends the (type, callback) pair unless an identical
pair is already registered. -/
def addListener (l : List (String × FnVal)) (evn : String) (h : FnVal) :
    List (String × FnVal) :=
  if (evn, h) ∈ l then l else l ++ [(evn, h)]

/-- removeEventListener: removes the first matching (type, callback) pair. -/
def removeFirst : List (String × FnVal) → String × FnVal → List (String × FnVal)
  | [], _ => []
  | x :: xs, p => if x = p then xs else x :: removeFirst xs p

/-- The descriptor installed by the lock step of _wireAndLockEvents:
value fixed, writable false, configurable true. -/
def lockDesc (f : FnVal) : PropDesc :=
  { value := JsVal.fn f, writable := false, configurable := true }

/-- Object.defineProperty on the instance's own level: succeeds (some)
replacing or appending the entry; fails (none, a TypeError in JavaScript)
when an existing own property is non-configurable and the new descriptor
differs from it. -/
def defineOwn : Level → String → PropDesc → Option Level
  | [], name, d => some [(name, d)]
  | (n, old) :: rest, name, d =>
    if n = name then
      if old.configurable then some ((n, d) :: rest)
      else if d = old then some ((n, old) :: rest) else none
    else
      match defineOwn rest name d with
      | some rest' => some ((n, old) :: rest')
      | none => none

/-- One iteration of the wiring loop for one collected method name: resolve
the value through the chain, skip when not callable, otherwise bind, add the
listener, push the teardown pair, and lock the property. The Bool records
whether the step threw (defineProperty failure); the mutations preceding
the throw persist, as in JavaScript. -/
def wireStep (i : Inst) (m : String) : Bool × Inst :=
  match resolvesFn i m with
  | none => (false, i)
  | some f =>
    let evn := getEventName m
    let handler : FnVal := { origId := f.origId, bindStamp := some i.bindCounter }
    let ls := addListener i.listeners evn handler
    let cf := i.cleanupFns ++ [(evn, handler)]
    match defineOwn i.own m (lockDesc f) with
    | some own2 =>
      (false, { own := own2, protos := i.protos, listeners := ls, cleanupFns := cf, bindCounter := i.bindCounter + 1 })
    | none =>
      (true, { i with listeners := ls, cleanupFns := cf, bindCounter := i.bindCounter + 1 })

/-- The wiring loop over the collected method names; stops early when a step
throws. -/
def wireList : Inst → List String → Bool × Inst
  | i, [] => (false, i)
  | i, m :: ms =>
    let r := wireStep i m
    if r.1 then r else wireList r.2 ms

/-- _wireAndLockEvents: scan the chain, then wire every collected name. -/
def wire (i : Inst) : Bool × Inst :=
  wireList i (hostMethods (instChain i))

/-- _unwireEvents: run every teardown closure in the order it was pushed
(each removes exactly the listener it captured), then reset the registry. -/
def unwire (i : Inst) : Inst :=
  { i with
    listeners := i.cleanupFns.foldl (fun l p => removeFirst l p) i.listeners,
    cleanupFns := [] }

/-- Dispatching a native event of the given type on the instance: every
listener registered for that type is invoked, in registration order, with
the event object as its sole argument. Each call is recorded as the invoked
function together with its argument list. -/
def dispatch (i : Inst) (evType : String) (ev : Nat) : List (FnVal × List Nat) :=
  (i.listeners.filter (fun p => p.1 == evType)).map (fun p => (p.2, [ev]))

/-- Strict-mode property assignment (module code is strict). The Bool
records whether a TypeError was thrown; the instance is returned unchanged
in that case. -/
def assign (i : Inst) (m : String) (v : JsVal) : Bool × Inst :=
  match lookupLevel i.own m with
  | some d =>
    if d.writable then
      (false, { i with own := i.own.map (fun p => if p.1 = m then (p.1, { p.2 with value := v }) else p) })
    else (true, i)
  | none =>
    match lookupDescChain i.protos m with
    | some d =>
      if d.writable then
        (false, { i with own := i.own ++ [(m, { value := v, writable := true, configurable := true })] })
      else (true, i)
    | none =>
      (false, { i with own := i.own ++ [(m, { value := v, writable := true, configurable := true })] })

/-- A record of one successful wiring iteration: the method name, the
function it resolved to, and the fresh stamp of the bind call. -/
structure WireRec where
  method : String
  orig : FnVal
  stamp : Nat
deriving DecidableEq

/-- The event name this record's listener was registered for. -/
def WireRec.evName (r : WireRec) : String := getEventName r.method

/-- The bound function this record registered as the listener. -/
def WireRec.handler (r : WireRec) : FnVal :=
  { origId := r.orig.origId, bindStamp := some r.stamp }

/-- The wiring records the loop produces for a given method list, resolving
values against the given instance and stamping binds from the given
counter. -/
def wireRecs (i : Inst) : List String → Nat → List WireRec
  | [], _ => []
  | m :: ms, c =>
    match resolvesFn i m with
    | some f => { method := m, orig := f, stamp := c } :: wireRecs i ms (c + 1)
    | none => wireRecs i ms c

/-- The (event name, bound listener) pairs of a run of wiring records. -/
def recsPairs (rs : List WireRec) : List (String × FnVal) :=
  rs.map (fun r => (r.evName, r.handler))

/-- Whether a registered listener's bind stamp (if any) predates the given
counter value. -/
def stampOk (c : Nat) (p : String × FnVal) : Bool :=
  match p.2.bindStamp with
  | some s => decide (s < c)
  | none => true

/-- Every listener already registered was bound before the given counter
value; holds vacuously for a freshly constructed instance. -/
def stampsBelow (l : List (String × FnVal)) (c : Nat) : Bool :=
  l.all (stampOk c)

/-- The lock step's defineProperty cannot fail at this name: the own
property is absent or configurable. -/
def canLock (lvl : Level) (m : String) : Bool :=
  match lookupLevel lvl m with
  | some d => d.configurable
  | none => true

/-- One connect/disconnect cycle as exercised by the spec: wire, dispatch
one event, unwire, dispatch again; returns all recorded handler calls and
the final instance. -/
def cycle1 (i : Inst) (evn : String) (ev : Nat) : List (FnVal × List Nat) × Inst :=
  let i1 := (wire i).2
  let c1 := dispatch i1 evn ev
  let i2 := unwire i1
  let c2 := dispatch i2 evn ev
  (c1 ++ c2, i2)

/-- N strictly alternating connect/disconnect cycles. -/
def cycles : Nat → Inst → String → Nat → List (FnVal × List Nat) × Inst
  | 0, i, _, _ => ([], i)
  | Nat.succ n, i, evn, ev =>
    let r := cycle1 i evn ev
    let rest := cycles n r.2 evn ev
    (r.1 ++ rest.1, rest.2)

/-- The argument lists of all recorded calls whose invoked function has the
given underlying code identity. -/
def callsOf (cs : List (FnVal × List Nat)) (g : Nat) : List (List Nat) :=
  (cs.filter (fun c => c.1.origId == g)).map Prod.snd

/-- The calls produced by dispatching an event of the given type against a
listener list consisting exactly of a run of wiring records. -/
def recCalls (rs : List WireRec) (evn : String) (ev : Nat) : List (FnVal × List Nat) :=
  ((recsPairs rs).filter (fun p => p.1 == evn)).map (fun p => (p.2, [ev]))

/-- Observable effects of defineAutoWebComponent on the host environment. -/
inductive DefEvent where
  | createdElement (tag : String)
  | factoryCalled (ref : Nat)
  | warned (msg : String)
  | defined (tag : String) (ref : Nat)
deriving DecidableEq

/-- The host environment state seen by defineAutoWebComponent: the custom
element registry, each class's static observedAttributes, an effect log,
and a supply of fresh class references. -/
structure DefWorld where
  registered : List (String × Nat)
  classAttrs : List (Nat × Option (List String))
  log : List DefEvent
  nextRef : Nat
deriving DecidableEq

/-- customElements.get. -/
def lookupTag : List (String × Nat) → String → Option Nat
  | [], _ => none
  | (t, r) :: rest, tag => if t = tag then some r else lookupTag rest tag

/-- Read a class's static observedAttributes. -/
def lookupAttrs : List (Nat × Option (List String)) → Nat → Option (Option (List String))
  | [], _ => none
  | (r, a) :: rest, ref => if r = ref then some a else lookupAttrs rest ref

/-- Overwrite a class's static observedAttributes. -/
def setAttrs : List (Nat × Option (List String)) → Nat → Option (List String) →
    List (Nat × Option (List String))
  | [], ref, v => [(ref, v)]
  | (r, a) :: rest, ref, v =>
    if r = ref then (r, v) :: rest else (r, a) :: setAttrs rest ref v

/-- The options.observedAttributes pass-through: assigned onto the class
only when supplied (an empty list is truthy in JavaScript and is assigned). -/
def applyOpts (w : DefWorld) (ref : Nat) : Option (List String) → DefWorld
  | some attrs => { w with classAttrs := setAttrs w.classAttrs ref (some attrs) }
  | none => w

/-- Translation of defineAutoWebComponent: create a base element of the
extends tag, run the caller's factory (producing a fresh implementation
class carrying the factory's own static observedAttributes), then check
the registry; on a duplicate tag, warn and return; otherwise assign the
supplied observedAttributes and register the class. -/
def defineAutoWebComponent (w : DefWorld) (tagName extendsTag : String)
    (factoryAttrs : Option (List String)) (opts : Option (List String)) : DefWorld :=
  let ref := w.nextRef
  let w1 : DefWorld :=
    { registered := w.registered, classAttrs := w.classAttrs ++ [(ref, factoryAttrs)], log := w.log ++ [DefEvent.createdElement extendsTag, DefEvent.factoryCalled ref], nextRef := ref + 1 }
  if (lookupTag w1.registered tagName).isSome then
    { w1 with log := w1.log ++ [DefEvent.warned ("Custom element " ++ tagName ++ " is already registered")] }
  else
    let w2 := applyOpts w1 ref opts
    { w2 with registered := w2.registered ++ [(tagName, ref)], log := w2.log ++ [DefEvent.defined tagName ref] }

/-- A concrete instance: a class prototype defining onClick as a plain
method, nothing own, freshly constructed. -/
def fn0 : FnVal := { origId := 0, bindStamp := none }

def protoLevel : Level :=
  [("onClick", { value := JsVal.fn fn0, writable := true, configurable := true })]

def cInst : Inst :=
  { own := [], protos := [protoLevel], listeners := [], cleanupFns := [], bindCounter := 0 }

/-- A concrete instance that also carries a convention-matching own
property holding a non-callable value. -/
def cInst2 : Inst :=
  { own := [("onFoo", { value := JsVal.prim 5, writable := true, configurable := true })], protos := [protoLevel], listeners := [], cleanupFns := [], bindCounter := 0 }

/-- A concrete host environment in which the tag "x-a" is already
registered to class 0. -/
def w0 : DefWorld :=
  { registered := [("x-a", 0)], classAttrs := [(0, none)], log := [], nextRef := 1 }

/-- What a run of the wiring loop over a method list does to an instance:
no throw; the fresh listener pairs and teardown pairs appended in loop
order; the prototype chain untouched; the bind counter advanced once per
wired name; every own property other than the wired ones untouched; every
wired name locked to the descriptor fixing its resolved function. -/
structure WireOut (i : Inst) (ms : List String) (out : Bool × Inst) : Prop where
  noThrow : out.1 = false
  listeners : out.2.listeners = i.listeners ++ recsPairs (wireRecs i ms i.bindCounter)
  cleanups : out.2.cleanupFns = i.cleanupFns ++ recsPairs (wireRecs i ms i.bindCounter)
  protosEq : out.2.protos = i.protos
  counter : out.2.bindCounter = i.bindCounter + (wireRecs i ms i.bindCounter).length
  ownOther : ∀ m, m ∉ (wireRecs i ms i.bindCounter).map WireRec.method →
    lookupLevel out.2.own m = lookupLevel i.own m
  ownLocked : ∀ r ∈ wireRecs i ms i.bindCounter,
    lookupLevel out.2.own r.method = some (lockDesc r.orig)

/-- The invariant tying the instance's state after any number of
connect/disconnect cycles back to its freshly constructed state: no
listeners attached, empty teardown registry, every convention-matching own
property still lockable, every name resolving to the same value as
initially, and the scanned method-name set unchanged. -/
structure CycleInv (i0 i : Inst) : Prop where
  listeners : i.listeners = []
  cleanups : i.cleanupFns = []
  canlock : ∀ m, isEventInterceptorMethod m = true → canLock i.own m = true
  resolves : ∀ m, resolvesFn i m = resolvesFn i0 m
  methodsIff : ∀ m, m ∈ hostMethods (instChain i) ↔ m ∈ hostMethods (instChain i0)

theorem lookupLevel_defineOwn_self :
    ∀ (lvl lvl' : Level) (m : String) (d : PropDesc),
      defineOwn lvl m d = some lvl' → lookupLevel lvl' m = some d
  | [], lvl', m, d, h => by
    simp [defineOwn] at h
    subst h
    simp [lookupLevel]
  | (n, old) :: rest, lvl', m, d, h => by
    by_cases hn : n = m
    · subst hn
      by_cases hc : old.configurable = true
      · simp [defineOwn, hc] at h
        subst h
        simp [lookupLevel]
      · by_cases hd : d = old
        · simp [defineOwn, hc, hd] at h
          subst h
          simp [lookupLevel, hd]
        · simp [defineOwn, hc, hd] at h
    · cases hrec : defineOwn rest m d with
      | none => simp [defineOwn, hn, hrec] at h
      | some rest' =>
        have ih := lookupLevel_defineOwn_self rest rest' m d hrec
        simp [defineOwn, hn, hrec] at h
        subst h
        simp [lookupLevel, hn, ih]

theorem lookupLevel_defineOwn_other :
    ∀ (lvl lvl' : Level) (m m' : String) (d : PropDesc),
      defineOwn lvl m d = some lvl' → m' ≠ m → lookupLevel lvl' m' = lookupLevel lvl m'
  | [], lvl', m, m', d, h, hne => by
    simp [defineOwn] at h
    subst h
    simp [lookupLevel, Ne.symm hne]
  | (n, old) :: rest, lvl', m, m', d, h, hne => by
    by_cases hn : n = m
    · subst hn
      by_cases hc : old.configurable = true
      · simp [defineOwn, hc] at h
        subst h
        simp [lookupLevel, Ne.symm hne]
      · by_cases hd : d = old
        · simp [defineOwn, hc, hd] at h
          subst h
          rfl
        · simp [defineOwn, hc, hd] at h
    · cases hrec : defineOwn rest m d with
      | none => simp [defineOwn, hn, hrec] at h
      | some rest' =>
        have ih := lookupLevel_defineOwn_other rest rest' m m' d hrec hne
        simp [defineOwn, hn, hrec] at h
        subst h
        by_cases hm' : n = m'
        · simp [lookupLevel, hm']
        · simp [lookupLevel, hm', ih]

theorem defineOwn_some_of_canLock (m : String) (d : PropDesc) :
    ∀ lvl : Level, canLock lvl m = true → ∃ lvl', defineOwn lvl m d = some lvl'
  | [], _ => ⟨[(m, d)], rfl⟩
  | (n, old) :: rest, h => by
    by_cases hn : n = m
    · subst hn
      have hc : old.configurable = true := by simpa [canLock, lookupLevel] using h
      exact ⟨(n, d) :: rest, by simp [defineOwn, hc]⟩
    · have h' : canLock rest m = true := by simpa [canLock, lookupLevel, hn] using h
      obtain ⟨rest', hr⟩ := defineOwn_some_of_canLock m d rest h'
      exact ⟨(n, old) :: rest', by simp [defineOwn, hn, hr]⟩

theorem canLock_defineOwn (lvl lvl' : Level) (m m' : String) (f : FnVal)
    (h : defineOwn lvl m (lockDesc f) = some lvl') (hcl : canLock lvl m' = true) :
    canLock lvl' m' = true := by
  by_cases hm : m' = m
  · subst hm
    have hs := lookupLevel_defineOwn_self lvl lvl' m' (lockDesc f) h
    simp [canLock, hs, lockDesc]
  · have hs := lookupLevel_defineOwn_other lvl lvl' m m' (lockDesc f) h hm
    simpa [canLock, hs] using hcl

theorem mem_stampOk {l : List (String × FnVal)} {c : Nat} {p : String × FnVal}
    (h : stampsBelow l c = true) (hp : p ∈ l) : stampOk c p = true := by
  unfold stampsBelow at h
  exact List.all_eq_true.mp h p hp

theorem not_mem_of_stampsBelow {l : List (String × FnVal)} {c : Nat} {evn : String} {g : Nat}
    (h : stampsBelow l c = true) : ((evn, ⟨g, some c⟩) : String × FnVal) ∉ l := by
  intro hm
  have hh := mem_stampOk h hm
  simp [stampOk] at hh

theorem addListener_fresh {l : List (String × FnVal)} {c : Nat} {evn : String} {g : Nat}
    (h : stampsBelow l c = true) :
    addListener l evn ⟨g, some c⟩ = l ++ [(evn, ⟨g, some c⟩)] := by
  simp [addListener, not_mem_of_stampsBelow h]

theorem stampOk_mono {c c' : Nat} {p : String × FnVal} (hc : c ≤ c')
    (h : stampOk c p = true) : stampOk c' p = true := by
  unfold stampOk at *
  cases hb : p.2.bindStamp with
  | none => simp
  | some s =>
    simp [hb] at h ⊢
    omega

theorem stampsBelow_snoc {l : List (String × FnVal)} {c : Nat} {evn : String} {g : Nat}
    (h : stampsBelow l c = true) :
    stampsBelow (l ++ [(evn, ⟨g, some c⟩)]) (c + 1) = true := by
  unfold stampsBelow at h ⊢
  rw [List.all_eq_true] at h ⊢
  intro p hp
  rcases List.mem_append.mp hp with h1 | h2
  · exact stampOk_mono (Nat.le_succ c) (h p h1)
  · have hp2 : p = (evn, ⟨g, some c⟩) := by simpa using h2
    subst hp2
    simp [stampOk]

theorem wireStep_none {i : Inst} {m : String} (h : resolvesFn i m = none) :
    wireStep i m = (false, i) := by
  simp [wireStep, h]

theorem wireStep_some {i : Inst} {m : String} {f : FnVal}
    (hf : resolvesFn i m = some f) (hcl : canLock i.own m = true)
    (hsb : stampsBelow i.listeners i.bindCounter = true) :
    ∃ own2, defineOwn i.own m (lockDesc f) = some own2 ∧
      wireStep i m = (false, { own := own2, protos := i.protos, listeners := i.listeners ++ [(getEventName m, { origId := f.origId, bindStamp := some i.bindCounter })], cleanupFns := i.cleanupFns ++ [(getEventName m, { origId := f.origId, bindStamp := some i.bindCounter })], bindCounter := i.bindCounter + 1 }) := by
  obtain ⟨own2, h2⟩ := defineOwn_some_of_canLock m (lockDesc f) i.own hcl
  refine ⟨own2, h2, ?_⟩
  simp [wireStep, hf, h2, addListener_fresh hsb]

theorem lookupChain_congr_head {lvl lvl' : Level} {p : List Level} {m : String}
    (h : lookupLevel lvl' m = lookupLevel lvl m) :
    lookupChain (lvl' :: p) m = lookupChain (lvl :: p) m := by
  unfold lookupChain
  rw [h]

theorem resolvesFn_congr {i1 i2 : Inst} {m : String}
    (h : lookupChain (instChain i1) m = lookupChain (instChain i2) m) :
    resolvesFn i1 m = resolvesFn i2 m := by
  simp [resolvesFn, h]

theorem wireRecs_congr {i1 i2 : Inst} :
    ∀ (ms : List String) (c : Nat),
      (∀ m ∈ ms, resolvesFn i1 m = resolvesFn i2 m) →
      wireRecs i1 ms c = wireRecs i2 ms c
  | [], _, _ => rfl
  | m :: ms, c, h => by
    have hm := h m (List.mem_cons_self m ms)
    have ht : ∀ m' ∈ ms, resolvesFn i1 m' = resolvesFn i2 m' :=
      fun m' hm' => h m' (List.mem_cons_of_mem m hm')
    cases hv : resolvesFn i2 m with
    | none => simp [wireRecs, hm, hv, wireRecs_congr ms c ht]
    | some f => simp [wireRecs, hm, hv, wireRecs_congr ms (c + 1) ht]

theorem wireRecs_method_mem {i : Inst} :
    ∀ {ms : List String} {c : Nat} {r : WireRec},
      r ∈ wireRecs i ms c → r.method ∈ ms
  | [], _, _, h => by simp [wireRecs] at h
  | m :: ms, c, r, h => by
    cases hv : resolvesFn i m with
    | some f =>
      simp only [wireRecs, hv] at h
      rcases List.mem_cons.mp h with h | h
      · subst h; exact List.mem_cons_self m ms
      · exact List.mem_cons_of_mem m (wireRecs_method_mem h)
    | none =>
      simp only [wireRecs, hv] at h
      exact List.mem_cons_of_mem m (wireRecs_method_mem h)

theorem wireRecs_resolves {i : Inst} :
    ∀ {ms : List String} {c : Nat} {r : WireRec},
      r ∈ wireRecs i ms c → resolvesFn i r.method = some r.orig
  | [], _, _, h => by simp [wireRecs] at h
  | m :: ms, c, r, h => by
    cases hv : resolvesFn i m with
    | some f =>
      simp only [wireRecs, hv] at h
      rcases List.mem_cons.mp h with h | h
      · subst h; exact hv
      · exact wireRecs_resolves h
    | none =>
      simp only [wireRecs, hv] at h
      exact wireRecs_resolves h

theorem wireRecs_stamp_lb {i : Inst} :
    ∀ {ms : List String} {c : Nat} {r : WireRec},
      r ∈ wireRecs i ms c → c ≤ r.stamp
  | [], _, _, h => by simp [wireRecs] at h
  | m :: ms, c, r, h => by
    cases hv : resolvesFn i m with
    | some f =>
      simp only [wireRecs, hv] at h
      rcases List.mem_cons.mp h with h | h
      · subst h; exact Nat.le_refl c
      · exact Nat.le_of_succ_le (wireRecs_stamp_lb h)
    | none =>
      simp only [wireRecs, hv] at h
      exact wireRecs_stamp_lb h

theorem wireRecs_map_method (i : Inst) :
    ∀ (ms : List String) (c : Nat),
      (wireRecs i ms c).map WireRec.method
        = ms.filter (fun m => (resolvesFn i m).isSome)
  | [], _ => rfl
  | m :: ms, c => by
    cases hv : resolvesFn i m with
    | some f =>
      simp [wireRecs, hv, List.filter_cons, wireRecs_map_method i ms (c + 1)]
    | none =>
      simp [wireRecs, hv, List.filter_cons, wireRecs_map_method i ms c]

theorem wireRecs_pairwise (i : Inst) :
    ∀ (ms : List String) (c : Nat),
      (wireRecs i ms c).Pairwise (fun a b => a.stamp < b.stamp)
  | [], _ => List.Pairwise.nil
  | m :: ms, c => by
    cases hv : resolvesFn i m with
    | none => simpa [wireRecs, hv] using wireRecs_pairwise i ms c
    | some f =>
      simp only [wireRecs, hv]
      refine List.Pairwise.cons ?_ (wireRecs_pairwise i ms (c + 1))
      intro r hr
      have := wireRecs_stamp_lb hr
      simpa using Nat.lt_of_succ_le this

theorem pairwise_lt_inj {α : Type} {f : α → Nat} :
    ∀ {l : List α}, l.Pairwise (fun a b => f a < f b) →
      ∀ {a b : α}, a ∈ l → b ∈ l → f a = f b → a = b := by
  intro l hl
  induction hl with
  | nil => intro a b ha _ _; simp at ha
  | @cons x l hhead _ ih =>
    intro a b ha hb hf
    rcases List.mem_cons.mp ha with rfl | ha'
    · rcases List.mem_cons.mp hb with rfl | hb'
      · rfl
      · have := hhead b hb'; omega
    · rcases List.mem_cons.mp hb with rfl | hb'
      · have := hhead a ha'; omega
      · exact ih ha' hb' hf

theorem wireRecs_stamp_inj {i : Inst} {ms : List String} {c : Nat} {r1 r2 : WireRec}
    (h1 : r1 ∈ wireRecs i ms c) (h2 : r2 ∈ wireRecs i ms c)
    (hs : r1.stamp = r2.stamp) : r1 = r2 :=
  pairwise_lt_inj (wireRecs_pairwise i ms c) h1 h2 hs

theorem wireRecs_methods_nodup {i : Inst} {ms : List String} {c : Nat}
    (h : ms.Nodup) : ((wireRecs i ms c).map WireRec.method).Nodup := by
  rw [wireRecs_map_method]
  exact h.filter _

theorem wireRecs_method_inj {i : Inst} {ms : List String} {c : Nat} {r1 r2 : WireRec}
    (hnd : ms.Nodup) (h1 : r1 ∈ wireRecs i ms c) (h2 : r2 ∈ wireRecs i ms c)
    (hm : r1.method = r2.method) : r1 = r2 :=
  List.inj_on_of_nodup_map (wireRecs_methods_nodup hnd) h1 h2 hm

theorem wireList_ok :
    ∀ (ms : List String) (i : Inst), ms.Nodup →
      (∀ m ∈ ms, canLock i.own m = true) →
      stampsBelow i.listeners i.bindCounter = true →
      WireOut i ms (wireList i ms)
  | [], i, _, _, _ => by
    refine ⟨rfl, ?_, ?_, rfl, ?_, ?_, ?_⟩
    · simp [wireList, wireRecs, recsPairs]
    · simp [wireList, wireRecs, recsPairs]
    · simp [wireList, wireRecs]
    · intro m _; simp [wireList]
    · intro r hr; simp [wireRecs] at hr
  | m :: ms, i, hnd, hcl, hsb => by
    have hndt : ms.Nodup := hnd.of_cons
    have hmns : m ∉ ms := (List.nodup_cons.mp hnd).1
    cases hv : resolvesFn i m with
    | none =>
      have hstep : wireStep i m = (false, i) := wireStep_none hv
      have hwl : wireList i (m :: ms) = wireList i ms := by
        simp [wireList, hstep]
      have ih := wireList_ok ms i hndt
        (fun m' hm' => hcl m' (List.mem_cons_of_mem m hm')) hsb
      have hrecs : wireRecs i (m :: ms) i.bindCounter = wireRecs i ms i.bindCounter := by
        simp [wireRecs, hv]
      obtain ⟨a1, a2, a3, a4, a5, a6, a7⟩ := ih
      rw [hwl]
      refine ⟨a1, ?_, ?_, a4, ?_, ?_, ?_⟩
      · rw [hrecs]; exact a2
      · rw [hrecs]; exact a3
      · rw [hrecs]; exact a5
      · intro m' hm'
        rw [hrecs] at hm'
        exact a6 m' hm'
      · intro r hr
        rw [hrecs] at hr
        exact a7 r hr
    | some f =>
      have hclm : canLock i.own m = true := hcl m (List.mem_cons_self m ms)
      obtain ⟨own2, hdef, hstep⟩ := wireStep_some hv hclm hsb
      generalize hI : ({ own := own2, protos := i.protos, listeners := i.listeners ++ [(getEventName m, { origId := f.origId, bindStamp := some i.bindCounter })], cleanupFns := i.cleanupFns ++ [(getEventName m, { origId := f.origId, bindStamp := some i.bindCounter })], bindCounter := i.bindCounter + 1 } : Inst) = i1 at hstep
      have hown : i1.own = own2 := by rw [← hI]
      have hprot : i1.protos = i.protos := by rw [← hI]
      have hlist : i1.listeners = i.listeners ++ [(getEventName m, { origId := f.origId, bindStamp := some i.bindCounter })] := by rw [← hI]
      have hclean : i1.cleanupFns = i.cleanupFns ++ [(getEventName m, { origId := f.origId, bindStamp := some i.bindCounter })] := by rw [← hI]
      have hcount : i1.bindCounter = i.bindCounter + 1 := by rw [← hI]
      have hwl : wireList i (m :: ms) = wireList i1 ms := by
        simp [wireList, hstep]
      have hres : ∀ m', m' ≠ m → resolvesFn i1 m' = resolvesFn i m' := by
        intro m' hne
        apply resolvesFn_congr
        show lookupChain (i1.own :: i1.protos) m' = lookupChain (i.own :: i.protos) m'
        rw [hown, hprot]
        exact lookupChain_congr_head
          (lookupLevel_defineOwn_other i.own own2 m m' (lockDesc f) hdef hne)
      have hcl1 : ∀ m' ∈ ms, canLock i1.own m' = true := by
        intro m' hm'
        rw [hown]
        exact canLock_defineOwn i.own own2 m m' f hdef
          (hcl m' (List.mem_cons_of_mem m hm'))
      have hsb1 : stampsBelow i1.listeners i1.bindCounter = true := by
        rw [hlist, hcount]
        exact stampsBelow_snoc hsb
      have ih := wireList_ok ms i1 hndt hcl1 hsb1
      have hrcongr : wireRecs i1 ms (i.bindCounter + 1) = wireRecs i ms (i.bindCounter + 1) := by
        refine wireRecs_congr ms (i.bindCounter + 1) ?_
        intro m' hm'
        exact hres m' (fun heq => hmns (heq ▸ hm'))
      have hR1 : wireRecs i1 ms i1.bindCounter = wireRecs i ms (i.bindCounter + 1) := by
        rw [hcount, hrcongr]
      have hrecs_cons : wireRecs i (m :: ms) i.bindCounter
          = { method := m, orig := f, stamp := i.bindCounter } :: wireRecs i ms (i.bindCounter + 1) := by
        simp [wireRecs, hv]
      have hmsub : m ∉ (wireRecs i ms (i.bindCounter + 1)).map WireRec.method := by
        intro hmem
        rcases List.mem_map.mp hmem with ⟨r, hr, hr'⟩
        exact hmns (hr' ▸ wireRecs_method_mem hr)
      refine ⟨?_, ?_, ?_, ?_, ?_, ?_, ?_⟩
      · rw [hwl]; exact ih.noThrow
      · rw [hwl, hrecs_cons, ih.listeners, hR1, hlist]
        simp [recsPairs, WireRec.evName, WireRec.handler]
      · rw [hwl, hrecs_cons, ih.cleanups, hR1, hclean]
        simp [recsPairs, WireRec.evName, WireRec.handler]
      · rw [hwl, ih.protosEq, hprot]
      · rw [hwl, hrecs_cons, ih.counter, hR1, hcount]
        simp [List.length_cons]
        omega
      · intro m' hm'
        rw [hrecs_cons] at hm'
        simp only [List.map_cons, List.mem_cons, not_or] at hm'
        obtain ⟨hne, hnotin⟩ := hm'
        rw [hwl, ih.ownOther m' (by rw [hR1]; exact hnotin), hown]
        exact lookupLevel_defineOwn_other i.own own2 m m' (lockDesc f) hdef hne
      · intro r hr
        rw [hrecs_cons] at hr
        rcases List.mem_cons.mp hr with rfl | hr'
        · rw [hwl, ih.ownOther m (by rw [hR1]; exact hmsub), hown]
          exact lookupLevel_defineOwn_self i.own own2 m (lockDesc f) hdef
        · rw [hwl]
          exact ih.ownLocked r (by rw [hR1]; exact hr')

theorem mem_addUnique {acc : List String} {x m : String} :
    m ∈ addUnique acc x ↔ m ∈ acc ∨ m = x := by
  unfold addUnique
  by_cases h : x ∈ acc
  · rw [if_pos h]
    constructor
    · exact Or.inl
    · rintro (hm | rfl)
      · exact hm
      · exact h
  · rw [if_neg h]
    simp [List.mem_append]

theorem nodup_addUnique {acc : List String} {x : String} (h : acc.Nodup) :
    (addUnique acc x).Nodup := by
  unfold addUnique
  by_cases hx : x ∈ acc
  · rw [if_pos hx]; exact h
  · rw [if_neg hx]
    simp [List.nodup_append, h, hx]

theorem mem_scanNames :
    ∀ (names acc : List String) (m : String),
      m ∈ names.foldl (fun a p => if isEventInterceptorMethod p then addUnique a p else a) acc
        ↔ m ∈ acc ∨ (m ∈ names ∧ isEventInterceptorMethod m = true)
  | [], acc, m => by simp
  | p :: names, acc, m => by
    rw [List.foldl_cons]
    by_cases hp : isEventInterceptorMethod p = true
    · rw [if_pos hp, mem_scanNames names (addUnique acc p) m]
      rw [mem_addUnique]
      constructor
      · rintro ((hm | rfl) | ⟨hm, hmat⟩)
        · exact Or.inl hm
        · exact Or.inr ⟨List.mem_cons_self m names, hp⟩
        · exact Or.inr ⟨List.mem_cons_of_mem p hm, hmat⟩
      · rintro (hm | ⟨hm, hmat⟩)
        · exact Or.inl (Or.inl hm)
        · rcases List.mem_cons.mp hm with rfl | hm'
          · exact Or.inl (Or.inr rfl)
          · exact Or.inr ⟨hm', hmat⟩
    · rw [if_neg hp, mem_scanNames names acc m]
      constructor
      · rintro (hm | ⟨hm, hmat⟩)
        · exact Or.inl hm
        · exact Or.inr ⟨List.mem_cons_of_mem p hm, hmat⟩
      · rintro (hm | ⟨hm, hmat⟩)
        · exact Or.inl hm
        · rcases List.mem_cons.mp hm with rfl | hm'
          · exact absurd hmat hp
          · exact Or.inr ⟨hm', hmat⟩

theorem mem_scanLevel {acc : List String} {lvl : Level} {m : String} :
    m ∈ scanLevel acc lvl
      ↔ m ∈ acc ∨ (m ∈ lvl.map Prod.fst ∧ isEventInterceptorMethod m = true) := by
  unfold scanLevel
  exact mem_scanNames (lvl.map Prod.fst) acc m

theorem mem_map_fst_iff_lookup :
    ∀ (lvl : Level) (m : String), m ∈ lvl.map Prod.fst ↔ (lookupLevel lvl m).isSome = true
  | [], m => by simp [lookupLevel]
  | (n, d) :: rest, m => by
    by_cases hn : n = m
    · subst hn
      simp [lookupLevel]
    · simp [lookupLevel, hn, Ne.symm hn, mem_map_fst_iff_lookup rest m]

theorem mem_hostMethods_aux :
    ∀ (chain : List Level) (acc : List String) (m : String),
      m ∈ chain.foldl scanLevel acc
        ↔ m ∈ acc ∨ (isEventInterceptorMethod m = true
            ∧ ∃ lvl ∈ chain, (lookupLevel lvl m).isSome = true)
  | [], acc, m => by simp
  | lvl :: chain, acc, m => by
    rw [List.foldl_cons, mem_hostMethods_aux chain (scanLevel acc lvl) m]
    rw [mem_scanLevel, mem_map_fst_iff_lookup]
    constructor
    · rintro ((hm | ⟨hlv, hmat⟩) | ⟨hmat, lv, hlv, hsome⟩)
      · exact Or.inl hm
      · exact Or.inr ⟨hmat, lvl, List.mem_cons_self lvl chain, hlv⟩
      · exact Or.inr ⟨hmat, lv, List.mem_cons_of_mem lvl hlv, hsome⟩
    · rintro (hm | ⟨hmat, lv, hlv, hsome⟩)
      · exact Or.inl (Or.inl hm)
      · rcases List.mem_cons.mp hlv with rfl | hlv'
        · exact Or.inl (Or.inr ⟨hsome, hmat⟩)
        · exact Or.inr ⟨hmat, lv, hlv', hsome⟩

theorem mem_hostMethods {chain : List Level} {m : String} :
    m ∈ hostMethods chain
      ↔ isEventInterceptorMethod m = true
          ∧ ∃ lvl ∈ chain, (lookupLevel lvl m).isSome = true := by
  unfold hostMethods
  rw [mem_hostMethods_aux]
  simp

theorem nodup_scanNames :
    ∀ (names acc : List String), acc.Nodup →
      (names.foldl (fun a p => if isEventInterceptorMethod p then addUnique a p else a) acc).Nodup
  | [], _, h => h
  | p :: names, acc, h => by
    rw [List.foldl_cons]
    by_cases hp : isEventInterceptorMethod p = true
    · rw [if_pos hp]
      exact nodup_scanNames names (addUnique acc p) (nodup_addUnique h)
    · rw [if_neg hp]
      exact nodup_scanNames names acc h

theorem nodup_scanLevel {acc : List String} {lvl : Level} (h : acc.Nodup) :
    (scanLevel acc lvl).Nodup :=
  nodup_scanNames (lvl.map Prod.fst) acc h

theorem nodup_hostMethods_aux :
    ∀ (chain : List Level) (acc : List String), acc.Nodup → (chain.foldl scanLevel acc).Nodup
  | [], _, h => h
  | lvl :: chain, acc, h => nodup_hostMethods_aux chain (scanLevel acc lvl) (nodup_scanLevel h)

theorem nodup_hostMethods (chain : List Level) : (hostMethods chain).Nodup :=
  nodup_hostMethods_aux chain [] List.nodup_nil

theorem hostMethods_matched {chain : List Level} {m : String} (h : m ∈ hostMethods chain) :
    isEventInterceptorMethod m = true :=
  (mem_hostMethods.mp h).1

theorem removeFirst_append_left {l2 : List (String × FnVal)} {p : String × FnVal} :
    ∀ {l1 : List (String × FnVal)}, p ∉ l1 →
      removeFirst (l1 ++ l2) p = l1 ++ removeFirst l2 p
  | [], _ => rfl
  | x :: xs, h => by
    have hx : ¬ x = p := fun he => h (by rw [← he]; exact List.mem_cons_self x xs)
    have h2 : p ∉ xs := fun hm => h (List.mem_cons_of_mem x hm)
    simp [removeFirst, hx, removeFirst_append_left h2]

theorem foldl_removeFirst_self :
    ∀ (l pre : List (String × FnVal)), (∀ p ∈ l, p ∉ pre) →
      l.foldl (fun acc p => removeFirst acc p) (pre ++ l) = pre
  | [], pre, _ => by simp
  | p :: l, pre, h => by
    rw [List.foldl_cons]
    have h1 : p ∉ pre := h p (List.mem_cons_self p l)
    have hstep : removeFirst (pre ++ p :: l) p = pre ++ l := by
      rw [removeFirst_append_left h1]
      simp [removeFirst]
    rw [hstep]
    exact foldl_removeFirst_self l pre (fun q hq => h q (List.mem_cons_of_mem p hq))

theorem unwire_after (j : Inst) (pre : List (String × FnVal))
    (hl : j.listeners = pre ++ j.cleanupFns)
    (hfresh : ∀ p ∈ j.cleanupFns, p ∉ pre) :
    (unwire j).listeners = pre ∧ (unwire j).cleanupFns = [] := by
  unfold unwire
  refine ⟨?_, rfl⟩
  rw [hl]
  exact foldl_removeFirst_self j.cleanupFns pre hfresh

theorem unwire_noop (j : Inst) (h : j.cleanupFns = []) : unwire j = j := by
  cases j
  simp only at h
  subst h
  rfl

theorem recsPairs_fresh {i : Inst} {ms : List String} {p : String × FnVal}
    (hsb : stampsBelow i.listeners i.bindCounter = true)
    (hp : p ∈ recsPairs (wireRecs i ms i.bindCounter)) : p ∉ i.listeners := by
  rcases List.mem_map.mp hp with ⟨r, hr, rfl⟩
  intro hmem
  have h1 := mem_stampOk hsb hmem
  have h2 := wireRecs_stamp_lb hr
  simp [stampOk, WireRec.handler] at h1
  omega

theorem dispatch_nil {i : Inst} (h : i.listeners = []) (evn : String) (ev : Nat) :
    dispatch i evn ev = [] := by
  simp [dispatch, h]

theorem filter_map_comm {α β : Type} (f : α → β) (q : β → Bool) :
    ∀ l : List α, (l.map f).filter q = (l.filter (fun x => q (f x))).map f
  | [] => rfl
  | x :: l => by
    by_cases hx : q (f x) = true
    · simp [List.filter_cons, hx, filter_map_comm f q l]
    · simp [List.filter_cons, hx, filter_map_comm f q l]

theorem filter_filter_and {α : Type} (p q : α → Bool) :
    ∀ l : List α, (l.filter p).filter q = l.filter (fun x => p x && q x)
  | [] => rfl
  | x :: l => by
    by_cases hp : p x = true
    · by_cases hq : q x = true
      · simp [List.filter_cons, hp, hq, filter_filter_and p q l]
      · simp [List.filter_cons, hp, hq, filter_filter_and p q l]
    · simp [List.filter_cons, hp, filter_filter_and p q l]

theorem filter_eq_nil_of_none {α : Type} {p : α → Bool} :
    ∀ {l : List α}, (∀ y ∈ l, ¬ (p y = true)) → l.filter p = []
  | [], _ => rfl
  | z :: zs, h => by
    rw [List.filter_cons, if_neg (h z (List.mem_cons_self z zs))]
    exact filter_eq_nil_of_none (fun y hy => h y (List.mem_cons_of_mem z hy))

theorem filter_eq_singleton_of_unique {α : Type} {p : α → Bool} :
    ∀ {l : List α} {a : α}, l.Nodup → a ∈ l → p a = true →
      (∀ x ∈ l, p x = true → x = a) → l.filter p = [a]
  | [], a, _, ha, _, _ => absurd ha (List.not_mem_nil a)
  | x :: l, a, hnd, ha, hpa, huniq => by
    rcases List.mem_cons.mp ha with rfl | ha'
    · have hnone : ∀ y ∈ l, ¬ (p y = true) := by
        intro y hy hpy
        have he := huniq y (List.mem_cons_of_mem a hy) hpy
        subst he
        exact (List.nodup_cons.mp hnd).1 hy
      rw [List.filter_cons, if_pos hpa, filter_eq_nil_of_none hnone]
    · by_cases hpx : p x = true
      · exfalso
        have he := huniq x (List.mem_cons_self x l) hpx
        subst he
        exact (List.nodup_cons.mp hnd).1 ha'
      · rw [List.filter_cons, if_neg hpx]
        exact filter_eq_singleton_of_unique (List.nodup_cons.mp hnd).2 ha' hpa
          (fun y hy hpy => huniq y (List.mem_cons_of_mem x hy) hpy)

theorem recCalls_cons_pos {r : WireRec} {rs : List WireRec} {evn : String} {ev : Nat}
    (h : (r.evName == evn) = true) :
    recCalls (r :: rs) evn ev = (r.handler, [ev]) :: recCalls rs evn ev := by
  simp [recCalls, recsPairs, List.filter_cons, h]

theorem recCalls_cons_neg {r : WireRec} {rs : List WireRec} {evn : String} {ev : Nat}
    (h : ¬ (r.evName == evn) = true) :
    recCalls (r :: rs) evn ev = recCalls rs evn ev := by
  simp [recCalls, recsPairs, List.filter_cons, h]

theorem recs_calls_nil {h0 : FnVal} {evn : String} {ev : Nat} :
    ∀ {rs : List WireRec}, (∀ r ∈ rs, ¬ (r.handler = h0)) →
      (recCalls rs evn ev).filter (fun c => c.1 == h0) = []
  | [], _ => rfl
  | r :: rs, h => by
    have hr : ¬ (r.handler = h0) := h r (List.mem_cons_self r rs)
    have ih := @recs_calls_nil h0 evn ev rs (fun r' hr' => h r' (List.mem_cons_of_mem r hr'))
    by_cases hq : (r.evName == evn) = true
    · rw [recCalls_cons_pos hq, List.filter_cons]
      simp [hr, ih]
    · rw [recCalls_cons_neg hq]
      exact ih

theorem recs_calls_singleton {evn : String} {ev : Nat} :
    ∀ {rs : List WireRec} {r0 : WireRec}, rs.Nodup → r0 ∈ rs → r0.evName = evn →
      (∀ r ∈ rs, r.handler = r0.handler → r = r0) →
      (recCalls rs evn ev).filter (fun c => c.1 == r0.handler) = [(r0.handler, [ev])]
  | [], r0, _, hr0, _, _ => absurd hr0 (List.not_mem_nil r0)
  | r :: rs, r0, hnd, hr0, hev, huniq => by
    rcases List.mem_cons.mp hr0 with rfl | hr0'
    · have hrest : ∀ r' ∈ rs, ¬ (r'.handler = r0.handler) := by
        intro r' hr' hh
        have he := huniq r' (List.mem_cons_of_mem r0 hr') hh
        subst he
        exact (List.nodup_cons.mp hnd).1 hr'
      have hq : (r0.evName == evn) = true := by simp [hev]
      rw [recCalls_cons_pos hq, List.filter_cons]
      have hnil := @recs_calls_nil r0.handler evn ev rs hrest
      simp [hnil]
    · have hne : ¬ (r.handler = r0.handler) := by
        intro hh
        have he := huniq r (List.mem_cons_self r rs) hh
        subst he
        exact (List.nodup_cons.mp hnd).1 hr0'
      have ih := @recs_calls_singleton evn ev rs r0 (List.nodup_cons.mp hnd).2 hr0' hev
        (fun r' hr' hh => huniq r' (List.mem_cons_of_mem r hr') hh)
      by_cases hq : (r.evName == evn) = true
      · rw [recCalls_cons_pos hq, List.filter_cons]
        simp [hne, ih]
      · rw [recCalls_cons_neg hq]
        exact ih

theorem handler_eq_stamp {r r0 : WireRec} (h : r.handler = r0.handler) :
    r.stamp = r0.stamp := by
  simp [WireRec.handler, FnVal.mk.injEq] at h
  exact h.2

theorem dispatch_after_wire {i : Inst} {r0 : WireRec} (ev : Nat)
    (h0 : i.listeners = [])
    (hcl : ∀ m ∈ hostMethods (instChain i), canLock i.own m = true)
    (hr0 : r0 ∈ wireRecs i (hostMethods (instChain i)) i.bindCounter) :
    (dispatch (wire i).2 r0.evName ev).filter (fun c => c.1 == r0.handler)
      = [(r0.handler, [ev])] := by
  have hsb : stampsBelow i.listeners i.bindCounter = true := by rw [h0]; rfl
  have hnd := nodup_hostMethods (instChain i)
  have W := wireList_ok (hostMethods (instChain i)) i hnd hcl hsb
  have hrsnd : (wireRecs i (hostMethods (instChain i)) i.bindCounter).Nodup :=
    List.Nodup.of_map _ (wireRecs_methods_nodup hnd)
  have hl : (wire i).2.listeners
      = recsPairs (wireRecs i (hostMethods (instChain i)) i.bindCounter) := by
    have hW := W.listeners
    rw [h0] at hW
    simpa [wire] using hW
  unfold dispatch
  rw [hl]
  show (recCalls (wireRecs i (hostMethods (instChain i)) i.bindCounter) r0.evName ev).filter
      (fun c => c.1 == r0.handler) = [(r0.handler, [ev])]
  exact recs_calls_singleton hrsnd hr0 rfl
    (fun r hr hh => wireRecs_stamp_inj hr hr0 (handler_eq_stamp hh))

theorem callsOf_append (a b : List (FnVal × List Nat)) (g : Nat) :
    callsOf (a ++ b) g = callsOf a g ++ callsOf b g := by
  simp [callsOf, List.filter_append]

theorem recs_calls_origId_nil {g : Nat} {evn : String} {ev : Nat} :
    ∀ {rs : List WireRec}, (∀ r ∈ rs, ¬ (r.orig.origId = g)) →
      (recCalls rs evn ev).filter (fun c => c.1.origId == g) = []
  | [], _ => rfl
  | r :: rs, h => by
    have hr : ¬ (r.orig.origId = g) := h r (List.mem_cons_self r rs)
    have ih := @recs_calls_origId_nil g evn ev rs (fun r' hr' => h r' (List.mem_cons_of_mem r hr'))
    by_cases hq : (r.evName == evn) = true
    · rw [recCalls_cons_pos hq, List.filter_cons]
      simp [WireRec.handler, hr, ih]
    · rw [recCalls_cons_neg hq]
      exact ih

theorem recs_calls_origId {g : Nat} {evn : String} {ev : Nat} :
    ∀ {rs : List WireRec} {r0 : WireRec}, rs.Nodup → r0 ∈ rs → r0.evName = evn →
      r0.orig.origId = g →
      (∀ r ∈ rs, r.orig.origId = g → r = r0) →
      (recCalls rs evn ev).filter (fun c => c.1.origId == g) = [(r0.handler, [ev])]
  | [], r0, _, hr0, _, _, _ => absurd hr0 (List.not_mem_nil r0)
  | r :: rs, r0, hnd, hr0, hev, hg, huniq => by
    rcases List.mem_cons.mp hr0 with rfl | hr0'
    · have hrest : ∀ r' ∈ rs, ¬ (r'.orig.origId = g) := by
        intro r' hr' hh
        have he := huniq r' (List.mem_cons_of_mem r0 hr') hh
        subst he
        exact (List.nodup_cons.mp hnd).1 hr'
      have hq : (r0.evName == evn) = true := by simp [hev]
      rw [recCalls_cons_pos hq, List.filter_cons]
      have hnil := @recs_calls_origId_nil g evn ev rs hrest
      simp [WireRec.handler, hg, hnil]
    · have hne : ¬ (r.orig.origId = g) := by
        intro hh
        have he := huniq r (List.mem_cons_self r rs) hh
        subst he
        exact (List.nodup_cons.mp hnd).1 hr0'
      have ih := @recs_calls_origId g evn ev rs r0 (List.nodup_cons.mp hnd).2 hr0' hev hg
        (fun r' hr' hh => huniq r' (List.mem_cons_of_mem r hr') hh)
      by_cases hq : (r.evName == evn) = true
      · rw [recCalls_cons_pos hq, List.filter_cons]
        simp [WireRec.handler, hne, ih]
      · rw [recCalls_cons_neg hq]
        exact ih

theorem wireRecs_exists_of_resolves {i : Inst} {ms : List String} {c : Nat} {m : String} {f : FnVal}
    (hm : m ∈ ms) (hf : resolvesFn i m = some f) :
    ∃ r ∈ wireRecs i ms c, r.method = m ∧ r.orig = f := by
  have hmem : m ∈ (wireRecs i ms c).map WireRec.method := by
    rw [wireRecs_map_method]
    exact List.mem_filter.mpr ⟨hm, by simp [hf]⟩
  rcases List.mem_map.mp hmem with ⟨r, hr, hrm⟩
  refine ⟨r, hr, hrm, ?_⟩
  have hres := wireRecs_resolves hr
  rw [hrm, hf] at hres
  exact (Option.some.inj hres).symm

theorem cycle1_spec {i0 i : Inst} (inv : CycleInv i0 i) {m0 : String} {f0 : FnVal} (ev : Nat)
    (hm0 : m0 ∈ hostMethods (instChain i0))
    (hf0 : resolvesFn i0 m0 = some f0)
    (hinj : ∀ m1 ∈ hostMethods (instChain i0), ∀ m2 ∈ hostMethods (instChain i0),
      ∀ g1 g2 : FnVal, resolvesFn i0 m1 = some g1 → resolvesFn i0 m2 = some g2 →
        g1.origId = g2.origId → m1 = m2) :
    CycleInv i0 (cycle1 i (getEventName m0) ev).2 ∧
      callsOf (cycle1 i (getEventName m0) ev).1 f0.origId = [[ev]] := by
  have hsb : stampsBelow i.listeners i.bindCounter = true := by rw [inv.listeners]; rfl
  have hclms : ∀ m ∈ hostMethods (instChain i), canLock i.own m = true :=
    fun m hm => inv.canlock m (hostMethods_matched hm)
  have hnd := nodup_hostMethods (instChain i)
  have W := wireList_ok (hostMethods (instChain i)) i hnd hclms hsb
  have hi1l : (wire i).2.listeners
      = recsPairs (wireRecs i (hostMethods (instChain i)) i.bindCounter) := by
    have hW := W.listeners
    rw [inv.listeners] at hW
    simpa [wire] using hW
  have hi1c : (wire i).2.cleanupFns
      = recsPairs (wireRecs i (hostMethods (instChain i)) i.bindCounter) := by
    have hW := W.cleanups
    rw [inv.cleanups] at hW
    simpa [wire] using hW
  have hi1p : (wire i).2.protos = i.protos := W.protosEq
  have hownOther : ∀ m, m ∉ (wireRecs i (hostMethods (instChain i)) i.bindCounter).map WireRec.method →
      lookupLevel (wire i).2.own m = lookupLevel i.own m := W.ownOther
  have hownLocked : ∀ r ∈ wireRecs i (hostMethods (instChain i)) i.bindCounter,
      lookupLevel (wire i).2.own r.method = some (lockDesc r.orig) := W.ownLocked
  have hun := unwire_after (wire i).2 []
    (by rw [hi1l, hi1c]; simp)
    (by intro p _; exact List.not_mem_nil p)
  have hi2own : (unwire (wire i).2).own = (wire i).2.own := rfl
  have hi2protos : (unwire (wire i).2).protos = (wire i).2.protos := rfl
  have hres2 : ∀ m, resolvesFn (unwire (wire i).2) m = resolvesFn i0 m := by
    intro m
    by_cases hm : m ∈ (wireRecs i (hostMethods (instChain i)) i.bindCounter).map WireRec.method
    · rcases List.mem_map.mp hm with ⟨r, hr, hrm⟩
      subst hrm
      have hlock := hownLocked r hr
      have h1 : resolvesFn (unwire (wire i).2) r.method = some r.orig := by
        simp [resolvesFn, instChain, lookupChain, hi2own, hlock, lockDesc]
      have h2 : resolvesFn i r.method = some r.orig := wireRecs_resolves hr
      rw [h1, ← inv.resolves r.method, h2]
    · have heq : lookupLevel (wire i).2.own m = lookupLevel i.own m := hownOther m hm
      have hcongr : resolvesFn (unwire (wire i).2) m = resolvesFn i m := by
        apply resolvesFn_congr
        show lookupChain ((unwire (wire i).2).own :: (unwire (wire i).2).protos) m
            = lookupChain (i.own :: i.protos) m
        rw [hi2own, hi2protos, hi1p]
        exact lookupChain_congr_head heq
      rw [hcongr, inv.resolves m]
  have hmethods2 : ∀ m, m ∈ hostMethods (instChain (unwire (wire i).2))
      ↔ m ∈ hostMethods (instChain i0) := by
    intro m
    rw [← inv.methodsIff m]
    constructor
    · intro hmem
      rcases mem_hostMethods.mp hmem with ⟨hmat, lvl, hlvl, hsome⟩
      rcases List.mem_cons.mp
          (show lvl ∈ (unwire (wire i).2).own :: (unwire (wire i).2).protos from hlvl)
        with rfl | hp
      · rw [hi2own] at hsome
        by_cases hmrec : m ∈ (wireRecs i (hostMethods (instChain i)) i.bindCounter).map WireRec.method
        · rcases List.mem_map.mp hmrec with ⟨r, hr, hrm⟩
          rw [← hrm]
          exact wireRecs_method_mem hr
        · rw [hownOther m hmrec] at hsome
          exact mem_hostMethods.mpr ⟨hmat, i.own, List.mem_cons_self i.own i.protos, hsome⟩
      · rw [hi2protos, hi1p] at hp
        exact mem_hostMethods.mpr ⟨hmat, lvl, List.mem_cons_of_mem i.own hp, hsome⟩
    · intro hmem
      rcases mem_hostMethods.mp hmem with ⟨hmat, lvl, hlvl, hsome⟩
      rcases List.mem_cons.mp (show lvl ∈ i.own :: i.protos from hlvl) with rfl | hp
      · by_cases hmrec : m ∈ (wireRecs i (hostMethods (instChain i)) i.bindCounter).map WireRec.method
        · rcases List.mem_map.mp hmrec with ⟨r, hr, hrm⟩
          have hlock := hownLocked r hr
          rw [hrm] at hlock
          refine mem_hostMethods.mpr ⟨hmat, (unwire (wire i).2).own, ?_, ?_⟩
          · exact List.mem_cons_self _ _
          · rw [hi2own, hlock]
            rfl
        · refine mem_hostMethods.mpr ⟨hmat, (unwire (wire i).2).own, ?_, ?_⟩
          · exact List.mem_cons_self _ _
          · rw [hi2own, hownOther m hmrec]
            exact hsome
      · refine mem_hostMethods.mpr ⟨hmat, lvl, ?_, hsome⟩
        show lvl ∈ (unwire (wire i).2).own :: (unwire (wire i).2).protos
        rw [hi2protos, hi1p]
        exact List.mem_cons_of_mem _ hp
  have hcl2 : ∀ m, isEventInterceptorMethod m = true →
      canLock (unwire (wire i).2).own m = true := by
    intro m hmat
    rw [hi2own]
    by_cases hmrec : m ∈ (wireRecs i (hostMethods (instChain i)) i.bindCounter).map WireRec.method
    · rcases List.mem_map.mp hmrec with ⟨r, hr, hrm⟩
      have hlock := hownLocked r hr
      rw [hrm] at hlock
      simp [canLock, hlock, lockDesc]
    · have hck := inv.canlock m hmat
      simpa [canLock, hownOther m hmrec] using hck
  have hm0i : m0 ∈ hostMethods (instChain i) := (inv.methodsIff m0).mpr hm0
  have hf0i : resolvesFn i m0 = some f0 := by rw [inv.resolves m0]; exact hf0
  obtain ⟨r0, hr0, hr0m, hr0o⟩ :=
    wireRecs_exists_of_resolves (c := i.bindCounter) hm0i hf0i
  have huniq : ∀ r ∈ wireRecs i (hostMethods (instChain i)) i.bindCounter,
      r.orig.origId = f0.origId → r = r0 := by
    intro r hr hg
    have hmr : r.method ∈ hostMethods (instChain i) := wireRecs_method_mem hr
    have hfr : resolvesFn i0 r.method = some r.orig := by
      rw [← inv.resolves r.method]
      exact wireRecs_resolves hr
    have hmm : r.method = m0 :=
      hinj r.method ((inv.methodsIff r.method).mp hmr) m0 hm0 r.orig f0 hfr hf0 hg
    exact wireRecs_method_inj hnd hr hr0 (by rw [hmm, hr0m])
  have hndrs : (wireRecs i (hostMethods (instChain i)) i.bindCounter).Nodup :=
    List.Nodup.of_map _ (wireRecs_methods_nodup hnd)
  have hcalls1 : callsOf (dispatch (wire i).2 (getEventName m0) ev) f0.origId = [[ev]] := by
    unfold callsOf dispatch
    rw [hi1l]
    show ((recCalls (wireRecs i (hostMethods (instChain i)) i.bindCounter) (getEventName m0) ev).filter
        (fun c => c.1.origId == f0.origId)).map Prod.snd = [[ev]]
    rw [recs_calls_origId hndrs hr0 (by rw [WireRec.evName, hr0m]) (by rw [hr0o]) huniq]
    rfl
  have hcalls2 : dispatch (unwire (wire i).2) (getEventName m0) ev = [] :=
    dispatch_nil hun.1 (getEventName m0) ev
  constructor
  · exact ⟨hun.1, hun.2, hcl2, hres2, hmethods2⟩
  · show callsOf (dispatch (wire i).2 (getEventName m0) ev
        ++ dispatch (unwire (wire i).2) (getEventName m0) ev) f0.origId = [[ev]]
    rw [callsOf_append, hcalls1, hcalls2]
    simp [callsOf]

theorem cycleInv_init {i0 : Inst} (h0 : i0.listeners = []) (hc0 : i0.cleanupFns = [])
    (hcl : ∀ m, isEventInterceptorMethod m = true → canLock i0.own m = true) :
    CycleInv i0 i0 :=
  ⟨h0, hc0, hcl, fun _ => rfl, fun _ => Iff.rfl⟩

theorem cycles_calls {i0 : Inst} {m0 : String} {f0 : FnVal} {ev : Nat}
    (hm0 : m0 ∈ hostMethods (instChain i0))
    (hf0 : resolvesFn i0 m0 = some f0)
    (hinj : ∀ m1 ∈ hostMethods (instChain i0), ∀ m2 ∈ hostMethods (instChain i0),
      ∀ g1 g2 : FnVal, resolvesFn i0 m1 = some g1 → resolvesFn i0 m2 = some g2 →
        g1.origId = g2.origId → m1 = m2) :
    ∀ (N : Nat) (i : Inst), CycleInv i0 i →
      callsOf (cycles N i (getEventName m0) ev).1 f0.origId = List.replicate N [ev]
  | 0, i, _ => by simp [cycles, callsOf]
  | Nat.succ n, i, inv => by
    obtain ⟨inv2, hcalls⟩ := cycle1_spec inv ev hm0 hf0 hinj
    have ih := @cycles_calls i0 m0 f0 ev hm0 hf0 hinj n (cycle1 i (getEventName m0) ev).2 inv2
    show callsOf ((cycle1 i (getEventName m0) ev).1
        ++ (cycles n (cycle1 i (getEventName m0) ev).2 (getEventName m0) ev).1) f0.origId
      = List.replicate (n + 1) [ev]
    rw [callsOf_append, hcalls, ih]
    rfl

theorem lookupAttrs_append_other {l : List (Nat × Option (List String))} {r c : Nat}
    {v : Option (List String)} (h : c ≠ r) :
    lookupAttrs (l ++ [(r, v)]) c = lookupAttrs l c := by
  induction l with
  | nil => simp [lookupAttrs, Ne.symm h]
  | cons p rest ih =>
    obtain ⟨pr, pv⟩ := p
    by_cases hp : pr = c
    · simp [lookupAttrs, hp]
    · simp [lookupAttrs, hp, ih]

theorem lookupTag_append_self {l : List (String × Nat)} {tag : String} {r : Nat}
    (h : lookupTag l tag = none) : lookupTag (l ++ [(tag, r)]) tag = some r := by
  induction l with
  | nil => simp [lookupTag]
  | cons p rest ih =>
    obtain ⟨pt, pr⟩ := p
    by_cases hp : pt = tag
    · simp [lookupTag, hp] at h
    · simp only [lookupTag, hp, if_false] at h ⊢
      simp [hp]
      exact ih h

theorem lookupAttrs_setAttrs_self :
    ∀ (l : List (Nat × Option (List String))) (ref : Nat) (v : Option (List String)),
      lookupAttrs (setAttrs l ref v) ref = some v
  | [], ref, v => by simp [setAttrs, lookupAttrs]
  | (r, a) :: rest, ref, v => by
    by_cases hr : r = ref
    · simp [setAttrs, hr, lookupAttrs]
    · simp [setAttrs, hr, lookupAttrs, lookupAttrs_setAttrs_self rest ref v]

theorem wire_locks_method {i : Inst} {m : String} {f : FnVal}
    (hsb : stampsBelow i.listeners i.bindCounter = true)
    (hcl : ∀ m' ∈ hostMethods (instChain i), canLock i.own m' = true)
    (hm : m ∈ hostMethods (instChain i))
    (hf : resolvesFn i m = some f) :
    lookupLevel (wire i).2.own m = some (lockDesc f) ∧
      ∃ r0 ∈ wireRecs i (hostMethods (instChain i)) i.bindCounter,
        r0.method = m ∧ r0.orig = f := by
  have hnd := nodup_hostMethods (instChain i)
  have W := wireList_ok (hostMethods (instChain i)) i hnd hcl hsb
  obtain ⟨r0, hr0, hr0m, hr0o⟩ := wireRecs_exists_of_resolves (c := i.bindCounter) hm hf
  refine ⟨?_, r0, hr0, hr0m, hr0o⟩
  have hlk := W.ownLocked r0 hr0
  rw [hr0m, hr0o] at hlk
  exact hlk

theorem wired_listener_mem {i : Inst} {r0 : WireRec}
    (h0 : i.listeners = [])
    (hcl : ∀ m' ∈ hostMethods (instChain i), canLock i.own m' = true)
    (hr0 : r0 ∈ wireRecs i (hostMethods (instChain i)) i.bindCounter) :
    (r0.evName, r0.handler) ∈ (wire i).2.listeners := by
  have hsb : stampsBelow i.listeners i.bindCounter = true := by rw [h0]; rfl
  have W := wireList_ok (hostMethods (instChain i)) i (nodup_hostMethods _) hcl hsb
  have hl : (wire i).2.listeners
      = recsPairs (wireRecs i (hostMethods (instChain i)) i.bindCounter) := by
    have hW := W.listeners
    rw [h0] at hW
    simpa [wire] using hW
  rw [hl]
  exact List.mem_map.mpr ⟨r0, hr0, rfl⟩

/-- Claim C1: for every instance and every handler-method name collected
from its prototype chain whose resolved value is callable, after wire() has
run, dispatching the corresponding native event invokes the listener wired
for that name exactly once, with the event object as its sole argument
(the listener is the bound copy of the resolved method). -/
theorem wired_handler_invoked_once (i : Inst) (m : String) (f : FnVal) (ev : Nat)
    (h0 : i.listeners = [])
    (hcl : ∀ m' ∈ hostMethods (instChain i), canLock i.own m' = true)
    (hm : m ∈ hostMethods (instChain i))
    (hf : resolvesFn i m = some f) :
    ∃ h : FnVal, h.origId = f.origId ∧ (getEventName m, h) ∈ (wire i).2.listeners ∧
      (dispatch (wire i).2 (getEventName m) ev).filter (fun c => c.1 == h) = [(h, [ev])] := by
  obtain ⟨r0, hr0, hr0m, hr0o⟩ := wireRecs_exists_of_resolves (c := i.bindCounter) hm hf
  have hev : r0.evName = getEventName m := by rw [WireRec.evName, hr0m]
  refine ⟨r0.handler, by simp [WireRec.handler, hr0o], ?_, ?_⟩
  · have hmem := wired_listener_mem h0 hcl hr0
    rw [hev] at hmem
    exact hmem
  · rw [← hev]
    exact dispatch_after_wire ev h0 hcl hr0

/-- Witness for C1 at a concrete instance with onClick on the prototype. -/
theorem wired_handler_invoked_once_witness :
    ∃ h : FnVal, h.origId = fn0.origId ∧ (getEventName "onClick", h) ∈ (wire cInst).2.listeners ∧
      (dispatch (wire cInst).2 (getEventName "onClick") 7).filter (fun c => c.1 == h)
        = [(h, [7])] :=
  wired_handler_invoked_once cInst "onClick" fn0 7 rfl (by decide) (by decide) (by decide)

/-- Claim C2: starting from a freshly constructed instance, N strictly
alternating cycles of wire, dispatch, unwire, dispatch invoke the handler
resolved for a wired method exactly N times, each time with the event as
sole argument: every connect wires fresh bindings, every disconnect tears
them down, and nothing accumulates across cycles. -/
theorem n_cycles_invoke_handler_n_times (i0 : Inst) (m0 : String) (f0 : FnVal) (N ev : Nat)
    (h0 : i0.listeners = []) (hc0 : i0.cleanupFns = [])
    (hcl : ∀ m, isEventInterceptorMethod m = true → canLock i0.own m = true)
    (hm0 : m0 ∈ hostMethods (instChain i0))
    (hf0 : resolvesFn i0 m0 = some f0)
    (hinj : ∀ m1 ∈ hostMethods (instChain i0), ∀ m2 ∈ hostMethods (instChain i0),
      ∀ g1 g2 : FnVal, resolvesFn i0 m1 = some g1 → resolvesFn i0 m2 = some g2 →
        g1.origId = g2.origId → m1 = m2) :
    callsOf (cycles N i0 (getEventName m0) ev).1 f0.origId = List.replicate N [ev] :=
  cycles_calls hm0 hf0 hinj N i0 (cycleInv_init h0 hc0 hcl)

/-- Witness for C2: two cycles on the concrete instance yield exactly two
invocations. -/
theorem n_cycles_invoke_handler_n_times_witness :
    callsOf (cycles 2 cInst (getEventName "onClick") 7).1 fn0.origId
      = List.replicate 2 [7] := by
  apply n_cycles_invoke_handler_n_times cInst "onClick" fn0 2 7 rfl rfl
  · exact fun m _ => rfl
  · decide
  · decide
  · intro m1 hm1 m2 hm2 g1 g2 h1 h2 hg
    have hsets : hostMethods (instChain cInst) = ["onClick"] := by decide
    rw [hsets] at hm1 hm2
    simp at hm1 hm2
    rw [hm1, hm2]

/-- Counterexample for C3 as stated: after wiring the concrete instance,
the registered listener is the bound function (bind stamp 0), while the
locked own property holds the original unbound function; the two are
distinct function objects, so the property does not hold the registered
listener. -/
theorem locked_value_differs_from_listener :
    (wire cInst).2.listeners = [("click", { origId := 0, bindStamp := some 0 })] ∧
    lookupLevel (wire cInst).2.own "onClick"
      = some { value := JsVal.fn { origId := 0, bindStamp := none },
               writable := false, configurable := true } ∧
    ({ origId := 0, bindStamp := some 0 } : FnVal) ≠ { origId := 0, bindStamp := none } :=
  ⟨by decide, by decide, by decide⟩

/-- Claim C3 (amended): after wire(), the instance's own property for a
wired name holds the original resolved function (not the bound listener,
which is a distinct function object sharing the same underlying code), the
descriptor is non-writable, and it remains configurable. -/
theorem locked_property_holds_original_function (i : Inst) (m : String) (f : FnVal)
    (h0 : i.listeners = [])
    (hcl : ∀ m' ∈ hostMethods (instChain i), canLock i.own m' = true)
    (hm : m ∈ hostMethods (instChain i))
    (hf : resolvesFn i m = some f)
    (hfo : f.bindStamp = none) :
    lookupLevel (wire i).2.own m
      = some { value := JsVal.fn f, writable := false, configurable := true } ∧
    ∃ h : FnVal, (getEventName m, h) ∈ (wire i).2.listeners ∧
      h.origId = f.origId ∧ h ≠ f := by
  have hsb : stampsBelow i.listeners i.bindCounter = true := by rw [h0]; rfl
  obtain ⟨hlock, r0, hr0, hr0m, hr0o⟩ := wire_locks_method hsb hcl hm hf
  refine ⟨hlock, r0.handler, ?_, by simp [WireRec.handler, hr0o], ?_⟩
  · have hmem := wired_listener_mem h0 hcl hr0
    rw [WireRec.evName, hr0m] at hmem
    exact hmem
  · intro heq
    have hb : r0.handler.bindStamp = f.bindStamp := by rw [heq]
    rw [hfo] at hb
    simp [WireRec.handler] at hb

/-- Witness for the amended C3 at the concrete instance. -/
theorem locked_property_holds_original_function_witness :
    lookupLevel (wire cInst).2.own "onClick"
      = some { value := JsVal.fn fn0, writable := false, configurable := true } ∧
    ∃ h : FnVal, (getEventName "onClick", h) ∈ (wire cInst).2.listeners ∧
      h.origId = fn0.origId ∧ h ≠ fn0 :=
  locked_property_holds_original_function cInst "onClick" fn0 rfl (by decide) (by decide)
    (by decide) rfl

/-- Claim C4: after wire(), a strict-mode assignment to a wired handler
property throws (write to a read-only property) and leaves the instance,
hence the property's effective value, unchanged. -/
theorem assign_locked_handler_throws (i : Inst) (m : String) (f : FnVal) (v : JsVal)
    (hsb : stampsBelow i.listeners i.bindCounter = true)
    (hcl : ∀ m' ∈ hostMethods (instChain i), canLock i.own m' = true)
    (hm : m ∈ hostMethods (instChain i))
    (hf : resolvesFn i m = some f) :
    assign (wire i).2 m v = (true, (wire i).2) ∧
      lookupLevel (wire i).2.own m = some (lockDesc f) := by
  obtain ⟨hlock, -⟩ := wire_locks_method hsb hcl hm hf
  refine ⟨?_, hlock⟩
  simp [assign, hlock, lockDesc]

/-- Witness for C4 at the concrete instance. -/
theorem assign_locked_handler_throws_witness :
    assign (wire cInst).2 "onClick" (JsVal.prim 9) = (true, (wire cInst).2) ∧
      lookupLevel (wire cInst).2.own "onClick" = some (lockDesc fn0) :=
  assign_locked_handler_throws cInst "onClick" fn0 (JsVal.prim 9) rfl (by decide)
    (by decide) (by decide)

/-- Claim C5: wire() wires exactly the deduplicated convention-matching own
property names over the prototype chain whose resolved value is callable:
no step throws, one listener and one teardown pair are appended per such
name in scan order, and a matched name resolving to a non-callable value is
skipped silently, with its own property left untouched. -/
theorem wire_wires_exactly_matched_callable (i : Inst)
    (hsb : stampsBelow i.listeners i.bindCounter = true)
    (hcl : ∀ m ∈ hostMethods (instChain i), canLock i.own m = true) :
    (wire i).1 = false ∧
    (wire i).2.listeners
      = i.listeners ++ recsPairs (wireRecs i (hostMethods (instChain i)) i.bindCounter) ∧
    (wire i).2.cleanupFns
      = i.cleanupFns ++ recsPairs (wireRecs i (hostMethods (instChain i)) i.bindCounter) ∧
    (wireRecs i (hostMethods (instChain i)) i.bindCounter).map WireRec.method
      = (hostMethods (instChain i)).filter (fun m => (resolvesFn i m).isSome) ∧
    ∀ m, (resolvesFn i m).isSome = false →
      lookupLevel (wire i).2.own m = lookupLevel i.own m := by
  have W := wireList_ok (hostMethods (instChain i)) i (nodup_hostMethods _) hcl hsb
  refine ⟨W.noThrow, W.listeners, W.cleanups, wireRecs_map_method i _ _, ?_⟩
  intro m hm
  apply W.ownOther
  intro hmem
  rcases List.mem_map.mp hmem with ⟨r, hr, hrm⟩
  have hres := wireRecs_resolves hr
  rw [hrm] at hres
  rw [hres] at hm
  simp at hm

/-- Witness for C5 at a concrete instance carrying both a callable matched
method and a non-callable matched property. -/
theorem wire_wires_exactly_matched_callable_witness :
    (wire cInst2).1 = false ∧
    (wire cInst2).2.listeners
      = cInst2.listeners
        ++ recsPairs (wireRecs cInst2 (hostMethods (instChain cInst2)) cInst2.bindCounter) ∧
    (wire cInst2).2.cleanupFns
      = cInst2.cleanupFns
        ++ recsPairs (wireRecs cInst2 (hostMethods (instChain cInst2)) cInst2.bindCounter) ∧
    (wireRecs cInst2 (hostMethods (instChain cInst2)) cInst2.bindCounter).map WireRec.method
      = (hostMethods (instChain cInst2)).filter (fun m => (resolvesFn cInst2 m).isSome) ∧
    ∀ m, (resolvesFn cInst2 m).isSome = false →
      lookupLevel (wire cInst2).2.own m = lookupLevel cInst2.own m :=
  wire_wires_exactly_matched_callable cInst2 rfl (by decide)

/-- Claim C6: unwire() runs every teardown closure in append order,
removing exactly the listeners of the wiring pass (pre-existing listeners
survive, none of the pass's pairs remain), resets the registry to empty,
and is a no-op on an instance whose registry is empty. -/
theorem unwire_drains_registry (i : Inst)
    (hc0 : i.cleanupFns = [])
    (hsb : stampsBelow i.listeners i.bindCounter = true)
    (hcl : ∀ m ∈ hostMethods (instChain i), canLock i.own m = true) :
    (unwire (wire i).2).listeners = i.listeners ∧
    (unwire (wire i).2).cleanupFns = [] ∧
    (∀ p ∈ (wire i).2.cleanupFns, p ∉ (unwire (wire i).2).listeners) ∧
    (∀ j : Inst, j.cleanupFns = [] → unwire j = j) := by
  have W := wireList_ok (hostMethods (instChain i)) i (nodup_hostMethods _) hcl hsb
  have hi1l : (wire i).2.listeners
      = i.listeners ++ recsPairs (wireRecs i (hostMethods (instChain i)) i.bindCounter) :=
    W.listeners
  have hi1c : (wire i).2.cleanupFns
      = recsPairs (wireRecs i (hostMethods (instChain i)) i.bindCounter) := by
    have hW := W.cleanups
    rw [hc0] at hW
    simpa [wire] using hW
  have hfresh : ∀ p ∈ (wire i).2.cleanupFns, p ∉ i.listeners := by
    rw [hi1c]
    exact fun p hp => recsPairs_fresh hsb hp
  have hu := unwire_after (wire i).2 i.listeners (by rw [hi1l, hi1c]) hfresh
  refine ⟨hu.1, hu.2, ?_, fun j hj => unwire_noop j hj⟩
  intro p hp
  rw [hu.1]
  exact hfresh p hp

/-- Witness for C6 at the concrete instance. -/
theorem unwire_drains_registry_witness :
    (unwire (wire cInst).2).listeners = cInst.listeners ∧
    (unwire (wire cInst).2).cleanupFns = [] ∧
    (∀ p ∈ (wire cInst).2.cleanupFns, p ∉ (unwire (wire cInst).2).listeners) ∧
    (∀ j : Inst, j.cleanupFns = [] → unwire j = j) :=
  unwire_drains_registry cInst rfl rfl (by decide)

/-- Claim C7: the method-name to event-name mapping is the pure transform
stripping the two-character prefix and lowercasing, verified on the three
documented literal pairs. -/
theorem event_name_mapping_literals :
    getEventName "onClick" = "click" ∧ getEventName "onDblClick" = "dblclick" ∧
      getEventName "onMouseDown" = "mousedown" :=
  ⟨by decide, by decide, by decide⟩

/-- Claim C8: a second registration under an already-registered tag is
refused: the registry is unchanged (the original class stays retrievable),
a warning is logged, nothing is thrown (the model is a total function and
appends no defined event), and the existing class's observed attributes
are untouched. -/
theorem duplicate_registration_refused (w : DefWorld) (tag ext : String)
    (fa opts : Option (List String)) (c : Nat)
    (hreg : lookupTag w.registered tag = some c) (hcn : c ≠ w.nextRef) :
    (defineAutoWebComponent w tag ext fa opts).registered = w.registered ∧
    lookupTag (defineAutoWebComponent w tag ext fa opts).registered tag = some c ∧
    (defineAutoWebComponent w tag ext fa opts).log
      = w.log ++ [DefEvent.createdElement ext, DefEvent.factoryCalled w.nextRef,
          DefEvent.warned ("Custom element " ++ tag ++ " is already registered")] ∧
    lookupAttrs (defineAutoWebComponent w tag ext fa opts).classAttrs c
      = lookupAttrs w.classAttrs c := by
  have hsome : (lookupTag w.registered tag).isSome = true := by rw [hreg]; rfl
  refine ⟨?_, ?_, ?_, ?_⟩ <;>
    simp [defineAutoWebComponent, hsome, hreg, lookupAttrs_append_other hcn, List.append_assoc]

/-- Witness for C8 at the concrete world where tag x-a maps to class 0. -/
theorem duplicate_registration_refused_witness :
    (defineAutoWebComponent w0 "x-a" "button" none (some ["a"])).registered = w0.registered ∧
    lookupTag (defineAutoWebComponent w0 "x-a" "button" none (some ["a"])).registered "x-a"
      = some 0 ∧
    (defineAutoWebComponent w0 "x-a" "button" none (some ["a"])).log
      = w0.log ++ [DefEvent.createdElement "button", DefEvent.factoryCalled w0.nextRef,
          DefEvent.warned ("Custom element " ++ "x-a" ++ " is already registered")] ∧
    lookupAttrs (defineAutoWebComponent w0 "x-a" "button" none (some ["a"])).classAttrs 0
      = lookupAttrs w0.classAttrs 0 :=
  duplicate_registration_refused w0 "x-a" "button" none (some ["a"]) 0 (by decide) (by decide)

/-- Claim C9: when a configuration supplies an observed-attributes
sequence and the tag is not yet registered, registration succeeds and the
implementation class's observed-attributes list equals exactly the
supplied sequence, unmodified and in order. -/
theorem observed_attributes_passthrough (w : DefWorld) (tag ext : String)
    (fa : Option (List String)) (attrs : List String)
    (hreg : lookupTag w.registered tag = none) :
    lookupTag (defineAutoWebComponent w tag ext fa (some attrs)).registered tag
      = some w.nextRef ∧
    lookupAttrs (defineAutoWebComponent w tag ext fa (some attrs)).classAttrs w.nextRef
      = some (some attrs) := by
  have hnone : (lookupTag w.registered tag).isSome = false := by rw [hreg]; rfl
  constructor
  · simp [defineAutoWebComponent, hnone, applyOpts, lookupTag_append_self hreg]
  · simp [defineAutoWebComponent, hnone, applyOpts, lookupAttrs_setAttrs_self]

/-- Witness for C9 at the concrete world. -/
theorem observed_attributes_passthrough_witness :
    lookupTag (defineAutoWebComponent w0 "x-b" "div" none (some ["foo", "bar"])).registered "x-b"
      = some w0.nextRef ∧
    lookupAttrs
        (defineAutoWebComponent w0 "x-b" "div" none (some ["foo", "bar"])).classAttrs w0.nextRef
      = some (some ["foo", "bar"]) :=
  observed_attributes_passthrough w0 "x-b" "div" none ["foo", "bar"] (by decide)

/-- Claim C10: on a duplicate tag, the base element is still created and
the factory still runs (its fresh class and static attributes appear)
before the duplicate check warns, while the registration itself and the
observed-attributes assignment are skipped. -/
theorem factory_runs_before_duplicate_check (w : DefWorld) (tag ext : String)
    (fa opts : Option (List String)) (c : Nat)
    (hreg : lookupTag w.registered tag = some c) :
    (defineAutoWebComponent w tag ext fa opts).log
      = w.log ++ [DefEvent.createdElement ext, DefEvent.factoryCalled w.nextRef,
          DefEvent.warned ("Custom element " ++ tag ++ " is already registered")] ∧
    (defineAutoWebComponent w tag ext fa opts).classAttrs
      = w.classAttrs ++ [(w.nextRef, fa)] ∧
    (defineAutoWebComponent w tag ext fa opts).registered = w.registered := by
  have hsome : (lookupTag w.registered tag).isSome = true := by rw [hreg]; rfl
  refine ⟨?_, ?_, ?_⟩ <;> simp [defineAutoWebComponent, hsome, List.append_assoc]

/-- Witness for C10 at the concrete world. -/
theorem factory_runs_before_duplicate_check_witness :
    (defineAutoWebComponent w0 "x-a" "div" (some ["z"]) none).log
      = w0.log ++ [DefEvent.createdElement "div", DefEvent.factoryCalled w0.nextRef,
          DefEvent.warned ("Custom element " ++ "x-a" ++ " is already registered")] ∧
    (defineAutoWebComponent w0 "x-a" "div" (some ["z"]) none).classAttrs
      = w0.classAttrs ++ [(w0.nextRef, some ["z"])] ∧
    (defineAutoWebComponent w0 "x-a" "div" (some ["z"]) none).registered = w0.registered :=
  factory_runs_before_duplicate_check w0 "x-a" "div" (some ["z"]) none 0 (by decide)
